import Mathlib

/-!
Verification of a bit-packed GF(2) polynomial library.

The program represents an element of GF(2)[x] of degree < 64 as the bits of
a `bitset<64>` (bit i = coefficient of x^i).  We embed such a value as a
natural number `a < 2 ^ 64` and translate each function of the source file
`polynomials.cpp`:

* `operator+`  -> `polyAdd` (bitwise xor),
* `degree`     -> `degree` (scan for the highest set bit from 63 down to 0),
* `operator%`  -> `polyMod` (long-division loop),
* `operator*`  -> `polyMul` (shift-and-xor product, truncated at 64 bits),
* `isPrimitive` -> `isPrimitive`,
* `findFieldElements` -> `findFieldElements`.

The two while loops of the source (`operator%` and the shared order loop of
`isPrimitive` / `findFieldElements`) do not terminate on every input, so the
embedded versions carry fuel and return `Option`; `none` models a loop the
C++ program never finishes (or, in `isPrimitive`, signed-overflow undefined
behaviour of the 32-bit `int` expression `(1 << deg) - 1`, see
`groupOrderC`).  The fuel bounds are generous enough that every run the C++
program completes is a `some` (proved below).

On the specification side, `toPoly` interprets a bit pattern as an actual
polynomial over `ZMod 2`, which lets us state primitivity and order claims
mathematically and prove the arithmetic functions correct against
`Polynomial (ZMod 2)`.
-/

/-- GF(2) addition of bit-packed polynomials: source `operator+`, bitwise xor. -/
def polyAdd (a b : Nat) : Nat := a ^^^ b

/-- Scan for the highest set bit from position `d` downwards, stopping at 0
without testing bit 0: the `for (; deg > 0; deg--)` loop of the source
function `degree`. -/
def degreeAux (a : Nat) : Nat → Nat
  | 0 => 0
  | d + 1 => if a.testBit (d + 1) then d + 1 else degreeAux a d

/-- Degree of a bit-packed polynomial, source function `degree`: position of
the highest set bit, scanning from SIZE - 1 = 63; returns 0 for the zero
polynomial (and for the polynomial 1). -/
def degree (a : Nat) : Nat := degreeAux a 63

/-- The body of the long-division loop of source `operator%`.  State:
`rem` is the running remainder, `remDeg` the variable `remDegree`, `i` the
(signed) shift amount.  One fuel unit is spent per loop-condition check. -/
def modLoop (b : Nat) : Nat → Nat → Nat → Int → Option Nat
  | 0, _, _, _ => none
  | fuel + 1, rem, remDeg, i =>
    if 0 ≤ i then
      modLoop b fuel (rem ^^^ ((b <<< i.toNat) % 2 ^ 64))
        (degree (rem ^^^ ((b <<< i.toNat) % 2 ^ 64)))
        (i - ((remDeg : Int) - (degree (rem ^^^ ((b <<< i.toNat) % 2 ^ 64)) : Int)))
    else
      some rem

/-- Remainder of bit-packed polynomial division, source `operator%`.  The
source loop runs at most 64 times when `degree b ≥ 1` (proved below), so 65
fuel units cover every terminating run; `none` models a run of the C++ loop
that never finishes (possible only for divisors of degree 0). -/
def polyMod (a b : Nat) : Option Nat :=
  modLoop b 65 a (degree a) ((degree a : Int) - (degree b : Int))

/-- Product of bit-packed polynomials, source `operator*`: xor of `b`
shifted left by each set bit position of `a`; bits shifted beyond position
63 are lost, exactly as in `bitset<64>`. -/
def polyMul (a b : Nat) : Nat :=
  (List.range 64).foldl
    (fun total i => if a.testBit i then total ^^^ ((b <<< i) % 2 ^ 64) else total) 0

/-- The source expression `int groupOrder = (1 << degree(p)) - 1`, evaluated
in the C++ type `int` (32 bits): the value is exact for `deg ≤ 30`.  For
`deg = 31` the subtraction underflows the signed 32-bit range and for
`deg ≥ 32` the shift count reaches the width of `int`; both are undefined
behaviour in C++ and are modelled as `none`. -/
def groupOrderC (deg : Nat) : Option Int :=
  if deg ≤ 30 then some (((1 <<< deg : Nat) : Int) - 1) else none

/-- Fuel for the order-counting and field-enumeration loops.  Both loops
iterate the map `current := current * x mod p`; every terminating run of
the C++ loops takes fewer than `2 ^ 64` steps (the reduced values are 64-bit
patterns and repeat before that), so this fuel is never exhausted on a run
the C++ program completes. -/
def bigFuel : Nat := 2 ^ 64

/-- The order-counting loop of source `isPrimitive`: starting from
`current = alpha` and `order = 1`, repeatedly set
`current := current * alpha % p` and increment `order` until `current = 1`;
the returned value is the final `order`.  The C++ counter is an `int`, but
on every path on which `isPrimitive` reaches this loop with a defined
`groupOrder` (degree ≤ 30) the count stays below 2^31, so a `Nat` counter is
faithful. -/
def isPrimitiveLoop (p : Nat) : Nat → Nat → Nat → Option Nat
  | 0, _, _ => none
  | fuel + 1, current, order =>
    if current = 1 then some order
    else
      match polyMod (polyMul current 2) p with
      | none => none
      | some c => isPrimitiveLoop p fuel c (order + 1)

/-- Source `isPrimitive`: degree < 2 short-circuits to `false`; then the
32-bit `groupOrder` is computed (before the loop, so its undefined behaviour
for degree ≥ 31 already decides the result), the order loop runs, and the
final order is compared with `groupOrder`. -/
def isPrimitive (p : Nat) : Option Bool :=
  if degree p < 2 then some false
  else
    match groupOrderC (degree p) with
    | none => none
    | some g =>
      match isPrimitiveLoop p bigFuel 2 1 with
      | none => none
      | some order => some (decide ((order : Int) = g))

/-- The enumeration loop of source `findFieldElements`: while
`current ≠ 1`, append `current` to the result and set
`current := current * alpha % p`. -/
def fieldLoop (p : Nat) : Nat → Nat → List Nat → Option (List Nat)
  | 0, _, _ => none
  | fuel + 1, current, res =>
    if current = 1 then some res
    else
      match polyMod (polyMul current 2) p with
      | none => none
      | some c => fieldLoop p fuel c (res ++ [current])

/-- Source `findFieldElements`: the result list starts as `{0, 1}` and the
loop starts from `current = alpha` (the bit pattern 0b10). -/
def findFieldElements (p : Nat) : Option (List Nat) :=
  fieldLoop p bigFuel 2 [0, 1]

/-- Value of the loop variable `current` (shared by `isPrimitive` and
`findFieldElements`) after `n` updates: `alphaIter p 0 = alpha` and each
step multiplies by `alpha` and reduces mod `p`, exactly as the loop body
does. -/
def alphaIter (p : Nat) : Nat → Option Nat
  | 0 => some 2
  | n + 1 =>
    match alphaIter p n with
    | none => none
    | some c => polyMod (polyMul c 2) p

/-- Interpretation of a bit pattern as a polynomial over GF(2): bit `i` is
the coefficient of `X ^ i`.  Only the 64 bits that the program stores are
read. -/
noncomputable def toPoly (n : Nat) : Polynomial (ZMod 2) :=
  ∑ i ∈ Finset.range 64, if n.testBit i then Polynomial.X ^ i else 0

/-- The multiplicative order of the root `alpha = x` in `GF(2)[x]/(p)` is
`m`: `m` is the least positive exponent with `x ^ m = 1` modulo `p`,
phrased as divisibility of `X ^ m + 1` (which equals `X ^ m - 1` in
characteristic 2). -/
def IsAlphaOrder (p m : Nat) : Prop :=
  1 ≤ m ∧ toPoly p ∣ Polynomial.X ^ m + 1 ∧
    ∀ j, 1 ≤ j → j < m → ¬ toPoly p ∣ Polynomial.X ^ j + 1

/-! ### Basic facts about `degree` -/

theorem degreeAux_le (a : Nat) : ∀ d, degreeAux a d ≤ d
  | 0 => Nat.le_refl 0
  | d + 1 => by
    unfold degreeAux
    split
    · exact Nat.le_refl _
    · exact Nat.le_trans (degreeAux_le a d) (Nat.le_succ d)

theorem degreeAux_testBit (a : Nat) :
    ∀ d, a.testBit (degreeAux a d) = true ∨ degreeAux a d = 0
  | 0 => Or.inr rfl
  | d + 1 => by
    unfold degreeAux
    split
    · next h => exact Or.inl h
    · exact degreeAux_testBit a d

theorem degreeAux_high (a : Nat) :
    ∀ d j, degreeAux a d < j → j ≤ d → a.testBit j = false
  | 0, j, hlt, hle => absurd (Nat.lt_of_lt_of_le hlt hle) (Nat.lt_irrefl 0)
  | d + 1, j, hlt, hle => by
    revert hlt
    unfold degreeAux
    split
    · next h => intro hlt; exact absurd hle (Nat.not_le_of_lt hlt)
    · next h =>
      intro hlt
      rcases Nat.lt_or_ge j (d + 1) with hj | hj
      · exact degreeAux_high a d j hlt (Nat.lt_succ_iff.mp hj)
      · have : j = d + 1 := Nat.le_antisymm hle hj
        exact this ▸ Bool.of_not_eq_true (fun ht => by simp [ht] at h)

theorem degree_le (a : Nat) : degree a ≤ 63 := degreeAux_le a 63

theorem testBit_degree (a : Nat) :
    a.testBit (degree a) = true ∨ degree a = 0 := degreeAux_testBit a 63

theorem testBit_of_degree_lt {a : Nat} (h64 : a < 2 ^ 64) :
    ∀ j, degree a < j → a.testBit j = false := by
  intro j hj
  rcases Nat.lt_or_ge j 64 with hlt | hge
  · exact degreeAux_high a 63 j hj (Nat.lt_succ_iff.mp hlt)
  · exact Nat.testBit_lt_two_pow (Nat.lt_of_lt_of_le h64 (Nat.pow_le_pow_right (by omega) hge))

/-- Upper bound: a 64-bit pattern is below `2 ^ (degree a + 1)`. -/
theorem lt_two_pow_degree_succ {a : Nat} (h64 : a < 2 ^ 64) :
    a < 2 ^ (degree a + 1) := by
  apply Nat.lt_pow_two_of_testBit
  intro i hi
  exact testBit_of_degree_lt h64 i (Nat.lt_of_lt_of_le (Nat.lt_succ_self _) hi)

/-- Lower bound: a nonzero 64-bit pattern is at least `2 ^ degree a`. -/
theorem two_pow_degree_le {a : Nat} (ha : a ≠ 0) :
    2 ^ degree a ≤ a := by
  rcases testBit_degree a with h | h
  · exact Nat.testBit_implies_ge h
  · rw [h]
    have := Nat.pos_of_ne_zero ha
    simpa using this

/-- The degree function is characterised by the two power bounds. -/
theorem degree_eq_of_bounds {a d : Nat} (h64 : a < 2 ^ 64)
    (hlo : 2 ^ d ≤ a) (hhi : a < 2 ^ (d + 1)) : degree a = d := by
  have ha : a ≠ 0 := by
    intro h
    rw [h] at hlo
    exact absurd hlo (Nat.not_le_of_lt (Nat.pos_pow_of_pos d (by omega)))
  have h1 : 2 ^ degree a ≤ a := two_pow_degree_le ha
  have h2 : a < 2 ^ (degree a + 1) := lt_two_pow_degree_succ h64
  have hle : degree a ≤ d := by
    by_contra hcon
    have : d + 1 ≤ degree a := by omega
    exact absurd (Nat.lt_of_lt_of_le hhi (Nat.pow_le_pow_right (by omega) this))
      (Nat.not_lt_of_le h1)
  have hge : d ≤ degree a := by
    by_contra hcon
    have : degree a + 1 ≤ d := by omega
    exact absurd (Nat.lt_of_lt_of_le h2 (Nat.pow_le_pow_right (by omega) this))
      (Nat.not_lt_of_le hlo)
  omega

theorem degree_zero : degree 0 = 0 := by decide

theorem degree_one : degree 1 = 0 := by decide

theorem degree_le_one {a : Nat} (ha : a ≤ 1) : degree a = 0 := by
  interval_cases a
  · exact degree_zero
  · exact degree_one

theorem degree_pos_of_two_le {a : Nat} (h64 : a < 2 ^ 64) (ha : 2 ≤ a) :
    1 ≤ degree a := by
  by_contra hcon
  have h0 : degree a = 0 := by omega
  have := lt_two_pow_degree_succ h64
  rw [h0] at this
  omega

theorem two_le_of_degree_pos {a : Nat} (ha : 1 ≤ degree a) : 2 ≤ a := by
  by_contra hcon
  have : a ≤ 1 := by omega
  rw [degree_le_one this] at ha
  omega

theorem testBit_degree_true {a : Nat} (h64 : a < 2 ^ 64) (ha : a ≠ 0) :
    a.testBit (degree a) = true := by
  rcases testBit_degree a with h | h
  · exact h
  · have h2 : a < 2 := by
      have := lt_two_pow_degree_succ h64
      rw [h] at this
      simpa using this
    have : a = 1 := by omega
    subst this
    rw [h]
    decide

/-! ### The interpretation `toPoly` and its bridge lemmas -/

theorem toPoly_coeff {n : Nat} (h64 : n < 2 ^ 64) (j : Nat) :
    (toPoly n).coeff j = if n.testBit j then 1 else 0 := by
  unfold toPoly
  rw [Polynomial.finset_sum_coeff]
  have hterm : ∀ i ∈ Finset.range 64,
      ((if n.testBit i then (Polynomial.X : Polynomial (ZMod 2)) ^ i else 0).coeff j)
        = if i = j then (if n.testBit j then (1 : ZMod 2) else 0) else 0 := by
    intro i _
    by_cases hij : i = j
    · subst hij
      by_cases hb : n.testBit i <;> simp [hb, Polynomial.coeff_X_pow]
    · have hji : ¬j = i := fun h => hij h.symm
      by_cases hb : n.testBit i <;>
        simp [hb, Polynomial.coeff_X_pow, hij, hji]
  rw [Finset.sum_congr rfl hterm, Finset.sum_ite_eq' (Finset.range 64) j]
  by_cases hj : j < 64
  · simp [hj]
  · have hbit : n.testBit j = false :=
      Nat.testBit_lt_two_pow
        (Nat.lt_of_lt_of_le h64 (Nat.pow_le_pow_right (by omega) (by omega)))
    simp [hj, hbit]

theorem toPoly_zero : toPoly 0 = 0 := by
  unfold toPoly
  simp

theorem toPoly_one : toPoly 1 = 1 := by
  apply Polynomial.ext
  intro j
  rw [toPoly_coeff (by norm_num) j, Polynomial.coeff_one]
  have : (1 : Nat).testBit j = decide (0 = j) := Nat.testBit_two_pow (n := 0)
  rw [this]
  by_cases hj : j = 0
  · subst hj; simp
  · simp [hj, Ne.symm hj]

theorem toPoly_two : toPoly 2 = Polynomial.X := by
  apply Polynomial.ext
  intro j
  rw [toPoly_coeff (by norm_num) j, Polynomial.coeff_X]
  have : (2 : Nat).testBit j = decide (1 = j) := Nat.testBit_two_pow (n := 1)
  rw [this]
  by_cases hj : 1 = j
  · subst hj; simp
  · simp [hj]

theorem toPoly_two_pow {k : Nat} (hk : k ≤ 63) :
    toPoly (2 ^ k) = Polynomial.X ^ k := by
  apply Polynomial.ext
  intro j
  rw [toPoly_coeff (Nat.pow_lt_pow_right (by omega) (by omega)) j,
    Polynomial.coeff_X_pow, Nat.testBit_two_pow]
  by_cases hj : k = j
  · subst hj; simp
  · have hji : ¬j = k := fun h => hj h.symm
    simp [hj, hji]

theorem toPoly_inj {a b : Nat} (ha : a < 2 ^ 64) (hb : b < 2 ^ 64)
    (h : toPoly a = toPoly b) : a = b := by
  apply Nat.eq_of_testBit_eq
  intro i
  have hc := congrArg (fun q => Polynomial.coeff q i) h
  simp only [toPoly_coeff ha, toPoly_coeff hb] at hc
  by_cases h1 : a.testBit i <;> by_cases h2 : b.testBit i
  · rw [h1, h2]
  · rw [if_pos h1, if_neg h2] at hc
    exact absurd hc one_ne_zero
  · rw [if_neg h1, if_pos h2] at hc
    exact absurd hc.symm one_ne_zero
  · rw [Bool.of_not_eq_true h1, Bool.of_not_eq_true h2]

theorem toPoly_ne_zero {a : Nat} (h64 : a < 2 ^ 64) (ha : a ≠ 0) :
    toPoly a ≠ 0 := by
  intro h
  exact ha (toPoly_inj h64 (by norm_num) (h.trans toPoly_zero.symm))

theorem toPoly_xor {a b : Nat} (ha : a < 2 ^ 64) (hb : b < 2 ^ 64) :
    toPoly (a ^^^ b) = toPoly a + toPoly b := by
  apply Polynomial.ext
  intro j
  rw [Polynomial.coeff_add, toPoly_coeff (Nat.xor_lt_two_pow ha hb) j,
    toPoly_coeff ha j, toPoly_coeff hb j, Nat.testBit_xor]
  by_cases h1 : a.testBit j <;> by_cases h2 : b.testBit j <;> simp [h1, h2] <;> decide

theorem toPoly_shiftLeft {n k : Nat} (hn : n < 2 ^ (64 - k)) (hk : k ≤ 64) :
    toPoly (n <<< k) = toPoly n * Polynomial.X ^ k := by
  have hn64 : n < 2 ^ 64 :=
    Nat.lt_of_lt_of_le hn (Nat.pow_le_pow_right (by omega) (by omega))
  have hshift : n <<< k < 2 ^ 64 := by
    rw [Nat.shiftLeft_eq]
    have hpos : 0 < 2 ^ k := Nat.pos_pow_of_pos k (by omega)
    have h1 : n * 2 ^ k < 2 ^ (64 - k) * 2 ^ k := (Nat.mul_lt_mul_right hpos).mpr hn
    have h2 : 2 ^ (64 - k) * 2 ^ k = 2 ^ 64 := by
      rw [← Nat.pow_add]
      congr 1
      omega
    omega
  apply Polynomial.ext
  intro j
  rw [toPoly_coeff hshift j, Polynomial.coeff_mul_X_pow', Nat.testBit_shiftLeft]
  by_cases hkj : k ≤ j
  · have hb : (decide (j ≥ k) && n.testBit (j - k)) = n.testBit (j - k) := by
      simp [hkj]
    rw [hb, if_pos hkj, toPoly_coeff hn64]
  · have hb : (decide (j ≥ k) && n.testBit (j - k)) = false := by
      simp [hkj]
    rw [hb, if_neg hkj]
    simp

theorem natDegree_toPoly {a : Nat} (h64 : a < 2 ^ 64) (ha : a ≠ 0) :
    (toPoly a).natDegree = degree a := by
  apply Nat.le_antisymm
  · rw [Polynomial.natDegree_le_iff_coeff_eq_zero]
    intro N hN
    rw [toPoly_coeff h64 N, testBit_of_degree_lt h64 N hN]
    simp
  · apply Polynomial.le_natDegree_of_ne_zero
    rw [toPoly_coeff h64, testBit_degree_true h64 ha]
    simp

/-- Reduced residues are canonical: two bit patterns strictly below
`2 ^ degree p` that agree modulo `p` are equal. -/
theorem toPoly_cancel {p u v : Nat} (hp64 : p < 2 ^ 64) (hp : p ≠ 0)
    (hu : u < 2 ^ degree p) (hv : v < 2 ^ degree p)
    (hdvd : toPoly p ∣ toPoly u + toPoly v) : u = v := by
  have hdp : degree p ≤ 63 := degree_le p
  have hu64 : u < 2 ^ 64 :=
    Nat.lt_of_lt_of_le hu (Nat.pow_le_pow_right (by omega) (by omega))
  have hv64 : v < 2 ^ 64 :=
    Nat.lt_of_lt_of_le hv (Nat.pow_le_pow_right (by omega) (by omega))
  rw [← toPoly_xor hu64 hv64] at hdvd
  by_contra hne
  have hw : u ^^^ v ≠ 0 := fun h => hne (Nat.xor_eq_zero.mp h)
  have hw64 : u ^^^ v < 2 ^ 64 := Nat.xor_lt_two_pow hu64 hv64
  have hwlt : u ^^^ v < 2 ^ degree p := Nat.xor_lt_two_pow hu hv
  have hdeg : degree (u ^^^ v) < degree p := by
    have h1 : 2 ^ degree (u ^^^ v) ≤ u ^^^ v := two_pow_degree_le hw
    have := Nat.lt_of_le_of_lt h1 hwlt
    exact (Nat.pow_lt_pow_iff_right (by omega)).mp this
  have hzero : toPoly (u ^^^ v) = 0 := by
    apply Polynomial.eq_zero_of_dvd_of_natDegree_lt hdvd
    rw [natDegree_toPoly hw64 hw, natDegree_toPoly hp64 hp]
    exact hdeg
  exact toPoly_ne_zero hw64 hw hzero

/-! ### Correctness of the long-division loop -/

theorem testBit_of_bounds {v d : Nat} (hlo : 2 ^ d ≤ v) (hhi : v < 2 ^ (d + 1)) :
    v.testBit d = true := by
  have hpos : 0 < 2 ^ d := Nat.pos_pow_of_pos d (by omega)
  have hdiv : v / 2 ^ d = 1 := by
    have h1 : 1 ≤ v / 2 ^ d := (Nat.one_le_div_iff hpos).mpr hlo
    have h2 : v / 2 ^ d < 2 := by
      rw [Nat.div_lt_iff_lt_mul hpos]
      calc v < 2 ^ (d + 1) := hhi
        _ = 2 * 2 ^ d := by rw [Nat.pow_succ, Nat.mul_comm]
    omega
  rw [Nat.testBit_to_div_mod, hdiv]
  rfl

theorem xor_lt_of_bounds {u v d : Nat} (hulo : 2 ^ d ≤ u) (huhi : u < 2 ^ (d + 1))
    (hvlo : 2 ^ d ≤ v) (hvhi : v < 2 ^ (d + 1)) : u ^^^ v < 2 ^ d := by
  apply Nat.lt_pow_two_of_testBit
  intro i hi
  rw [Nat.testBit_xor]
  rcases Nat.eq_or_lt_of_le hi with heq | hlt
  · rw [← heq, testBit_of_bounds hulo huhi, testBit_of_bounds hvlo hvhi]
    rfl
  · have hu2 : u < 2 ^ i := Nat.lt_of_lt_of_le huhi (Nat.pow_le_pow_right (by omega) hlt)
    have hv2 : v < 2 ^ i := Nat.lt_of_lt_of_le hvhi (Nat.pow_le_pow_right (by omega) hlt)
    rw [Nat.testBit_lt_two_pow hu2, Nat.testBit_lt_two_pow hv2]
    rfl

/-- Invariant run of the division loop: whenever the divisor has positive
degree, the loop returns (within the given fuel) a remainder that is zero or
of degree less than `degree b`, and that is congruent to the input modulo
`b` in GF(2)[x]. -/
theorem modLoop_run (b : Nat) (hb64 : b < 2 ^ 64) (hdb : 1 ≤ degree b) :
    ∀ fuel (rem : Nat) (i : Int), rem < 2 ^ 64 →
      (0 ≤ i → (degree rem : Int) = (degree b : Int) + i ∧ 2 ^ degree rem ≤ rem) →
      (i < 0 → rem = 0 ∨ degree rem < degree b) →
      (0 ≤ i → i.toNat + 2 ≤ fuel) → 1 ≤ fuel →
      ∃ r, modLoop b fuel rem (degree rem) i = some r ∧ r < 2 ^ 64 ∧
        (r = 0 ∨ degree r < degree b) ∧ toPoly b ∣ toPoly rem + toPoly r := by
  intro fuel
  induction fuel with
  | zero => intro rem i _ _ _ _ h1; omega
  | succ fuel ih =>
    intro rem i hrem hinv hexit hfuel _
    by_cases hi : 0 ≤ i
    · obtain ⟨hdeg, hlow⟩ := hinv hi
      have hb2 : b ≠ 0 := by
        intro h
        rw [h, degree_zero] at hdb
        omega
      have hdble : degree b ≤ 63 := degree_le b
      have hD63 : degree rem ≤ 63 := degree_le rem
      have hbhi : b < 2 ^ (degree b + 1) := lt_two_pow_degree_succ hb64
      have hblo : 2 ^ degree b ≤ b := two_pow_degree_le hb2
      have hremhi : rem < 2 ^ (degree rem + 1) := lt_two_pow_degree_succ hrem
      have htn : (i.toNat : Int) = i := Int.toNat_of_nonneg hi
      have hDeq : degree rem = degree b + i.toNat := by omega
      -- the shifted divisor fits in 64 bits and has the same top bit as rem
      have hxmul : b * 2 ^ i.toNat < 2 ^ (degree rem + 1) := by
        have h1 : b * 2 ^ i.toNat < 2 ^ (degree b + 1) * 2 ^ i.toNat :=
          (Nat.mul_lt_mul_right (Nat.pos_pow_of_pos _ (by omega))).mpr hbhi
        have h2 : 2 ^ (degree b + 1) * 2 ^ i.toNat = 2 ^ (degree rem + 1) := by
          rw [← Nat.pow_add]
          have he : degree b + 1 + i.toNat = degree rem + 1 := by omega
          rw [he]
        omega
      have hxhi : b <<< i.toNat < 2 ^ (degree rem + 1) := by
        rw [Nat.shiftLeft_eq]
        exact hxmul
      have hxlt64 : b <<< i.toNat < 2 ^ 64 := by
        have h3 : (2 : Nat) ^ (degree rem + 1) ≤ 2 ^ 64 :=
          Nat.pow_le_pow_right (by omega) (by omega)
        omega
      have hxmod : (b <<< i.toNat) % 2 ^ 64 = b <<< i.toNat := Nat.mod_eq_of_lt hxlt64
      have hxlo : 2 ^ degree rem ≤ b <<< i.toNat := by
        rw [Nat.shiftLeft_eq, hDeq, Nat.pow_add]
        exact Nat.mul_le_mul_right _ hblo
      set rem2 := rem ^^^ ((b <<< i.toNat) % 2 ^ 64) with hrem2def
      have hrem2eq : rem2 = rem ^^^ b <<< i.toNat := by rw [hrem2def, hxmod]
      have hrem2lt : rem2 < 2 ^ degree rem := by
        rw [hrem2eq]
        exact xor_lt_of_bounds hlow hremhi hxlo hxhi
      have hrem264 : rem2 < 2 ^ 64 := by
        have : (2 : Nat) ^ degree rem ≤ 2 ^ 64 := Nat.pow_le_pow_right (by omega) (by omega)
        omega
      -- congruence: rem2 differs from rem by the multiple X^i * b of b
      have hstep : toPoly b ∣ toPoly rem + toPoly rem2 := by
        have hx64sub : b < 2 ^ (64 - i.toNat) := by
          have : degree b + 1 ≤ 64 - i.toNat := by omega
          exact Nat.lt_of_lt_of_le hbhi (Nat.pow_le_pow_right (by omega) this)
        have hxpoly : toPoly (b <<< i.toNat) = toPoly b * Polynomial.X ^ i.toNat :=
          toPoly_shiftLeft hx64sub (by omega)
        have hxor : toPoly rem2 = toPoly rem + toPoly (b <<< i.toNat) := by
          rw [hrem2eq, toPoly_xor hrem hxlt64]
        rw [hxor]
        have hcanc : toPoly rem + (toPoly rem + toPoly b * Polynomial.X ^ i.toNat)
            = toPoly b * Polynomial.X ^ i.toNat := by
          rw [← add_assoc, CharTwo.add_self_eq_zero, zero_add]
        rw [hxpoly, hcanc]
        exact Dvd.intro _ rfl
      -- peel one loop iteration
      have hunfold : modLoop b (fuel + 1) rem (degree rem) i
          = modLoop b fuel rem2 (degree rem2)
              (i - ((degree rem : Int) - (degree rem2 : Int))) := by
        rw [modLoop]
        rw [if_pos hi]
      set i2 : Int := i - ((degree rem : Int) - (degree rem2 : Int)) with hi2def
      have hfuel1 : i.toNat + 2 ≤ fuel + 1 := hfuel hi
      -- the new state satisfies the hypotheses of the induction
      have hrec : ∃ r, modLoop b fuel rem2 (degree rem2) i2 = some r ∧ r < 2 ^ 64 ∧
          (r = 0 ∨ degree r < degree b) ∧ toPoly b ∣ toPoly rem2 + toPoly r := by
        by_cases h2le : 2 ≤ rem2
        · have hnd_lo : 2 ^ degree rem2 ≤ rem2 := two_pow_degree_le (by omega)
          have hndlt : degree rem2 < degree rem := by
            have := Nat.lt_of_le_of_lt hnd_lo hrem2lt
            exact (Nat.pow_lt_pow_iff_right (by omega)).mp this
          by_cases hi2 : 0 ≤ i2
          · exact ih rem2 i2 hrem264
              (fun _ => ⟨by omega, hnd_lo⟩)
              (by omega)
              (fun _ => by omega)
              (by omega)
          · push_neg at hi2
            have hnddb : degree rem2 < degree b := by omega
            exact ih rem2 i2 hrem264
              (fun h => absurd h (by omega))
              (fun _ => Or.inr hnddb)
              (fun h => absurd h (by omega))
              (by omega)
        · have hnd0 : degree rem2 = 0 := degree_le_one (by omega)
          have hi2neg : i2 < 0 := by
            rw [hi2def, hnd0]
            omega
          have hex : rem2 = 0 ∨ degree rem2 < degree b := by
            rw [hnd0]
            rcases Nat.lt_or_ge rem2 1 with h | h
            · exact Or.inl (by omega)
            · exact Or.inr (by omega)
          exact ih rem2 i2 hrem264
            (fun h => absurd h (by omega))
            (fun _ => hex)
            (fun h => absurd h (by omega))
            (by omega)
      obtain ⟨r, hr, hr64, hrdeg, hrdvd⟩ := hrec
      refine ⟨r, ?_, hr64, hrdeg, ?_⟩
      · rw [hunfold]
        exact hr
      · -- combine the two congruences
        have hsum : toPoly rem + toPoly r
            = (toPoly rem + toPoly rem2) + (toPoly rem2 + toPoly r) := by
          rw [add_assoc, ← add_assoc (toPoly rem2), CharTwo.add_self_eq_zero, zero_add]
        rw [hsum]
        exact dvd_add hstep hrdvd
    · push_neg at hi
      refine ⟨rem, ?_, hrem, hexit hi, ?_⟩
      · rw [modLoop]
        rw [if_neg (by omega)]
      · rw [CharTwo.add_self_eq_zero]
        exact dvd_zero _

/-- Specification of the remainder: for a divisor of positive degree the
division loop terminates within its fuel, and the result is zero or of
degree less than `degree b` and congruent to `a` modulo `b` in GF(2)[x]. -/
theorem polyMod_spec {a b : Nat} (ha : a < 2 ^ 64) (hb64 : b < 2 ^ 64)
    (hdb : 1 ≤ degree b) :
    ∃ r, polyMod a b = some r ∧ r < 2 ^ 64 ∧
      (r = 0 ∨ degree r < degree b) ∧ toPoly b ∣ toPoly a + toPoly r := by
  unfold polyMod
  have hda : degree a ≤ 63 := degree_le a
  by_cases hcase : degree b ≤ degree a
  · have ha2 : a ≠ 0 := by
      intro h
      rw [h, degree_zero] at hcase
      omega
    exact modLoop_run b hb64 hdb 65 a _ ha
      (fun _ => ⟨by omega, two_pow_degree_le ha2⟩)
      (fun h => absurd h (by omega))
      (fun _ => by omega)
      (by omega)
  · exact modLoop_run b hb64 hdb 65 a _ ha
      (fun h => absurd h (by omega))
      (fun _ => Or.inr (by omega))
      (fun h => absurd h (by omega))
      (by omega)

/-- When the dividend already has smaller degree than the divisor, the loop
condition fails at once and the dividend is returned unchanged. -/
theorem polyMod_of_degree_lt {a b : Nat} (h : degree a < degree b) :
    polyMod a b = some a := by
  unfold polyMod
  rw [show (65 : Nat) = 64 + 1 from rfl, modLoop]
  rw [if_neg (by omega)]

/-! ### The product and its interpretation -/

theorem le_degree_of_testBit {a i : Nat} (h64 : a < 2 ^ 64) (h : a.testBit i = true) :
    i ≤ degree a := by
  by_contra hcon
  push_neg at hcon
  rw [testBit_of_degree_lt h64 i hcon] at h
  cases h

theorem polyMul_lt (a b : Nat) : polyMul a b < 2 ^ 64 := by
  unfold polyMul
  suffices h : ∀ l (acc : Nat), acc < 2 ^ 64 →
      List.foldl (fun total i => if a.testBit i then total ^^^ ((b <<< i) % 2 ^ 64)
        else total) acc l < 2 ^ 64 by
    exact h _ 0 (by norm_num)
  intro l
  induction l with
  | nil => intro acc h; exact h
  | cons x xs ih =>
    intro acc h
    simp only [List.foldl_cons]
    by_cases hb : a.testBit x
    · rw [if_pos hb]
      exact ih _ (Nat.xor_lt_two_pow h (Nat.mod_lt _ (by norm_num)))
    · rw [if_neg hb]
      exact ih _ h

theorem list_range_map_sum {M : Type} [AddCommMonoid M] (g : Nat → M) :
    ∀ n, ((List.range n).map g).sum = ∑ i ∈ Finset.range n, g i
  | 0 => by simp
  | n + 1 => by
    rw [List.range_succ, List.map_append, List.sum_append, Finset.sum_range_succ,
      list_range_map_sum g n]
    simp

/-- The shift-and-xor product computes the true GF(2)[x] product whenever no
bit is shifted beyond position 63 (no truncation). -/
theorem toPoly_polyMul {a b : Nat} (ha : a < 2 ^ 64) (hb : b < 2 ^ 64)
    (hdeg : degree a + degree b ≤ 63) :
    toPoly (polyMul a b) = toPoly a * toPoly b := by
  have hbd : degree b ≤ 63 := degree_le b
  have hstep : ∀ l (acc : Nat), acc < 2 ^ 64 →
      toPoly (List.foldl (fun total i => if a.testBit i then
          total ^^^ ((b <<< i) % 2 ^ 64) else total) acc l)
        = toPoly acc
          + (l.map (fun i => if a.testBit i then toPoly b * Polynomial.X ^ i else 0)).sum := by
    intro l
    induction l with
    | nil => intro acc hacc; simp
    | cons x xs ih =>
      intro acc hacc
      simp only [List.foldl_cons, List.map_cons, List.sum_cons]
      by_cases hbit : a.testBit x
      · rw [if_pos hbit, if_pos hbit]
        have hxa : x ≤ degree a := le_degree_of_testBit ha hbit
        have hb64x : b < 2 ^ (64 - x) := by
          have h1 : b < 2 ^ (degree b + 1) := lt_two_pow_degree_succ hb
          have h2 : (2 : Nat) ^ (degree b + 1) ≤ 2 ^ (64 - x) :=
            Nat.pow_le_pow_right (by omega) (by omega)
          omega
        have hshl : b <<< x < 2 ^ 64 := by
          have h1 : b * 2 ^ x < 2 ^ (64 - x) * 2 ^ x :=
            (Nat.mul_lt_mul_right (Nat.pos_pow_of_pos _ (by omega))).mpr hb64x
          have h2 : 2 ^ (64 - x) * 2 ^ x = 2 ^ 64 := by
            rw [← Nat.pow_add]
            have he : 64 - x + x = 64 := by omega
            rw [he]
          rw [Nat.shiftLeft_eq]
          omega
        have hmod : (b <<< x) % 2 ^ 64 = b <<< x := Nat.mod_eq_of_lt hshl
        rw [ih _ (Nat.xor_lt_two_pow hacc (Nat.mod_lt _ (by norm_num)))]
        rw [hmod, toPoly_xor hacc hshl, toPoly_shiftLeft hb64x (by omega)]
        ring
      · rw [if_neg hbit, if_neg hbit]
        rw [ih _ hacc]
        rw [zero_add]
  unfold polyMul
  rw [hstep _ 0 (by norm_num), toPoly_zero, zero_add, list_range_map_sum]
  unfold toPoly
  rw [Finset.sum_mul]
  apply Finset.sum_congr rfl
  intro i _
  by_cases hbit : a.testBit i
  · rw [if_pos hbit, if_pos hbit]
    ring
  · rw [if_neg hbit, if_neg hbit, zero_mul]

/-! ### The iterated multiply-and-reduce map -/

theorem degree_two : degree 2 = 1 := by decide

theorem lt_pow_of_reduced {r dp : Nat} (h64 : r < 2 ^ 64) (hdp : 1 ≤ dp)
    (h : r = 0 ∨ degree r < dp) : r < 2 ^ dp := by
  rcases h with h | h
  · subst h
    exact Nat.pos_pow_of_pos dp (by omega)
  · have h1 : r < 2 ^ (degree r + 1) := lt_two_pow_degree_succ h64
    have h2 : (2 : Nat) ^ (degree r + 1) ≤ 2 ^ dp := Nat.pow_le_pow_right (by omega) (by omega)
    omega

/-- Invariant of the shared order loop: after `n` updates the loop variable
holds a pattern below `2 ^ degree p` that represents `x ^ (n + 1)` modulo
`p`. -/
theorem alphaIter_spec {p : Nat} (hp64 : p < 2 ^ 64) (hdp : 2 ≤ degree p) :
    ∀ n, ∃ v, alphaIter p n = some v ∧ v < 2 ^ degree p ∧
      toPoly p ∣ toPoly v + Polynomial.X ^ (n + 1)
  | 0 => by
    refine ⟨2, rfl, ?_, ?_⟩
    · have h4 : (4 : Nat) ≤ 2 ^ degree p := by
        calc (4 : Nat) = 2 ^ 2 := rfl
          _ ≤ 2 ^ degree p := Nat.pow_le_pow_right (by omega) hdp
      omega
    · rw [toPoly_two, pow_one, CharTwo.add_self_eq_zero]
      exact dvd_zero _
  | n + 1 => by
    obtain ⟨v, hv, hvlt, hvdvd⟩ := alphaIter_spec hp64 hdp n
    have hdp63 : degree p ≤ 63 := degree_le p
    have hv64 : v < 2 ^ 64 := by
      have : (2 : Nat) ^ degree p ≤ 2 ^ 64 := Nat.pow_le_pow_right (by omega) (by omega)
      omega
    have hdv : degree v + degree 2 ≤ 63 := by
      rw [degree_two]
      by_cases hv0 : v = 0
      · rw [hv0, degree_zero]; omega
      · have h1 : 2 ^ degree v ≤ v := two_pow_degree_le hv0
        have h2 : degree v < degree p := by
          have := Nat.lt_of_le_of_lt h1 hvlt
          exact (Nat.pow_lt_pow_iff_right (by omega)).mp this
        omega
    have hw : toPoly (polyMul v 2) = toPoly v * Polynomial.X := by
      rw [toPoly_polyMul hv64 (by norm_num) hdv, toPoly_two]
    obtain ⟨r, hr, hr64, hrred, hrdvd⟩ :=
      polyMod_spec (polyMul_lt v 2) hp64 (by omega)
    refine ⟨r, ?_, lt_pow_of_reduced hr64 (by omega) hrred, ?_⟩
    · show (match alphaIter p n with
        | none => none
        | some c => polyMod (polyMul c 2) p) = some r
      rw [hv]
      exact hr
    · have hsplit : toPoly r + Polynomial.X ^ (n + 1 + 1)
          = (toPoly (polyMul v 2) + toPoly r)
            + (toPoly (polyMul v 2) + Polynomial.X ^ (n + 1 + 1)) := by
        have h2w : toPoly (polyMul v 2) + toPoly (polyMul v 2) = 0 :=
          CharTwo.add_self_eq_zero _
        calc toPoly r + Polynomial.X ^ (n + 1 + 1)
            = (toPoly (polyMul v 2) + toPoly (polyMul v 2))
              + (toPoly r + Polynomial.X ^ (n + 1 + 1)) := by rw [h2w, zero_add]
          _ = (toPoly (polyMul v 2) + toPoly r)
              + (toPoly (polyMul v 2) + Polynomial.X ^ (n + 1 + 1)) := by ring
      rw [hsplit]
      apply dvd_add hrdvd
      have hfac : toPoly (polyMul v 2) + Polynomial.X ^ (n + 1 + 1)
          = (toPoly v + Polynomial.X ^ (n + 1)) * Polynomial.X := by
        rw [hw]
        ring
      rw [hfac]
      exact Dvd.dvd.mul_right hvdvd _

/-! ### The quotient ring GF(2)[x]/(p) and the order of x -/

theorem p_ne_zero_of_degree {p : Nat} (hdp : 2 ≤ degree p) : p ≠ 0 := by
  intro h
  rw [h, degree_zero] at hdp
  omega

/-- Congruence of a bit pattern with a power of x, read in the quotient
ring. -/
theorem dvd_iff_mk_eq {p v k : Nat} :
    toPoly p ∣ toPoly v + Polynomial.X ^ k
      ↔ AdjoinRoot.mk (toPoly p) (toPoly v) = AdjoinRoot.root (toPoly p) ^ k := by
  rw [show AdjoinRoot.root (toPoly p) ^ k
      = AdjoinRoot.mk (toPoly p) (Polynomial.X ^ k) from by rw [map_pow, AdjoinRoot.mk_X],
    AdjoinRoot.mk_eq_mk, CharTwo.sub_eq_add]

theorem one_ne_zero_adjoin {p : Nat} (hp64 : p < 2 ^ 64) (hdp : 2 ≤ degree p) :
    (1 : AdjoinRoot (toPoly p)) ≠ 0 := by
  intro h
  have h1 : AdjoinRoot.mk (toPoly p) 1 = AdjoinRoot.mk (toPoly p) 0 := by
    rw [map_one, map_zero]
    exact h
  have h2 := AdjoinRoot.mk_eq_mk.mp h1
  rw [sub_zero] at h2
  have hle := Polynomial.natDegree_le_of_dvd h2 one_ne_zero
  rw [Polynomial.natDegree_one, natDegree_toPoly hp64 (p_ne_zero_of_degree hdp)] at hle
  omega

/-- If some positive power of x equals 1 modulo `p` (with `degree p ≥ 2`),
then the least such exponent `k` satisfies `2 ≤ k ≤ 2 ^ degree p - 1`, the
loop value returns to the pattern 1 exactly after `k - 1` updates, and at no
earlier step. -/
theorem alpha_order_exists {p : Nat} (hp64 : p < 2 ^ 64) (hdp : 2 ≤ degree p)
    (hex : ∃ m, 1 ≤ m ∧ toPoly p ∣ Polynomial.X ^ m + 1) :
    ∃ k, IsAlphaOrder p k ∧ 2 ≤ k ∧ k ≤ 2 ^ degree p - 1 ∧
      alphaIter p (k - 1) = some 1 ∧
      ∀ j v, j + 1 < k → alphaIter p j = some v → v ≠ 1 := by
  obtain ⟨m, hm1, hmdvd⟩ := hex
  have hpne : p ≠ 0 := p_ne_zero_of_degree hdp
  set α := AdjoinRoot.root (toPoly p) with hα
  have hdvd1 : toPoly p ∣ toPoly 1 + Polynomial.X ^ m := by
    rw [toPoly_one, add_comm]
    exact hmdvd
  have hpow_m : α ^ m = 1 := by
    have h := dvd_iff_mk_eq.mp hdvd1
    rw [toPoly_one, map_one] at h
    exact h.symm
  have hord : IsOfFinOrder α := isOfFinOrder_iff_pow_eq_one.mpr ⟨m, by omega, hpow_m⟩
  set k := orderOf α with hk
  have hk1 : 1 ≤ k := hord.orderOf_pos
  have hpowk : α ^ k = 1 := pow_orderOf_eq_one α
  have hmin : ∀ j, 1 ≤ j → j < k → α ^ j ≠ 1 := by
    intro j hj1 hjk hcon
    have hdvd := orderOf_dvd_iff_pow_eq_one.mpr hcon
    have := Nat.le_of_dvd (by omega) hdvd
    omega
  have hunit : IsUnit α := by
    apply isUnit_of_mul_eq_one α (α ^ (m - 1))
    have h1 : α * α ^ (m - 1) = α ^ (1 + (m - 1)) := by rw [pow_add, pow_one]
    rw [h1, show 1 + (m - 1) = m from by omega, hpow_m]
  have h10 : (1 : AdjoinRoot (toPoly p)) ≠ 0 := one_ne_zero_adjoin hp64 hdp
  have hspec : ∀ n, alphaIter p n = some ((alphaIter p n).getD 0)
      ∧ (alphaIter p n).getD 0 < 2 ^ degree p
      ∧ AdjoinRoot.mk (toPoly p) (toPoly ((alphaIter p n).getD 0)) = α ^ (n + 1) := by
    intro n
    obtain ⟨v, hv, hvlt, hvdvd⟩ := alphaIter_spec hp64 hdp n
    have hg : (alphaIter p n).getD 0 = v := by rw [hv, Option.getD_some]
    rw [hg]
    exact ⟨hv, hvlt, dvd_iff_mk_eq.mp hvdvd⟩
  have hne0 : ∀ n, (alphaIter p n).getD 0 ≠ 0 := by
    intro n h0
    have h := (hspec n).2.2
    rw [h0, toPoly_zero, map_zero] at h
    have hu : IsUnit (α ^ (n + 1)) := hunit.pow _
    rw [← h, isUnit_zero_iff] at hu
    exact h10 hu.symm
  have hinj : ∀ i j, i ≤ j → j < k → (alphaIter p i).getD 0 = (alphaIter p j).getD 0
      → i = j := by
    intro i j hij hjk heq
    by_contra hne
    have hi := (hspec i).2.2
    have hj := (hspec j).2.2
    rw [heq] at hi
    have hsplit : α ^ (j + 1) = α ^ (i + 1) * α ^ (j - i) := by
      rw [← pow_add]
      congr 1
      omega
    have hcanc : α ^ (j - i) = 1 := by
      have hu : IsUnit (α ^ (i + 1)) := hunit.pow _
      apply hu.mul_left_cancel
      rw [mul_one, ← hsplit, ← hi, hj]
    exact hmin (j - i) (by omega) (by omega) hcanc
  have hkle : k ≤ 2 ^ degree p - 1 := by
    have hmaps : ∀ n ∈ Finset.range k,
        (alphaIter p n).getD 0 ∈ Finset.Ico 1 (2 ^ degree p) := by
      intro n _
      rw [Finset.mem_Ico]
      exact ⟨Nat.one_le_iff_ne_zero.mpr (hne0 n), (hspec n).2.1⟩
    have hcard := Finset.card_le_card_of_injOn (fun n => (alphaIter p n).getD 0)
      hmaps ?_
    · rw [Finset.card_range, Nat.card_Ico] at hcard
      omega
    · intro i hi j hj heq
      simp only [Finset.coe_range, Set.mem_Iio] at hi hj
      rcases Nat.le_total i j with h | h
      · exact hinj i j h hj heq
      · exact (hinj j i h hi heq.symm).symm
  have h1lt : (1 : Nat) < 2 ^ degree p := by
    have h4 : (4 : Nat) ≤ 2 ^ degree p := by
      calc (4 : Nat) = 2 ^ 2 := rfl
        _ ≤ 2 ^ degree p := Nat.pow_le_pow_right (by omega) hdp
    omega
  have hk_hit : alphaIter p (k - 1) = some 1 := by
    obtain ⟨v, hv, hvlt, hvdvd⟩ := alphaIter_spec hp64 hdp (k - 1)
    have hmk : AdjoinRoot.mk (toPoly p) (toPoly v) = α ^ k := by
      have h := dvd_iff_mk_eq.mp hvdvd
      rw [show k - 1 + 1 = k from by omega] at h
      exact h
    rw [hpowk] at hmk
    have hdvd : toPoly p ∣ toPoly v + toPoly 1 := by
      rw [toPoly_one]
      have h1 : AdjoinRoot.mk (toPoly p) (toPoly v) = AdjoinRoot.mk (toPoly p) 1 := by
        rw [hmk, map_one]
      have h2 := AdjoinRoot.mk_eq_mk.mp h1
      rwa [CharTwo.sub_eq_add] at h2
    have hveq : v = 1 := toPoly_cancel hp64 hpne hvlt h1lt hdvd
    rw [hv, hveq]
  have hk_min : ∀ j v, j + 1 < k → alphaIter p j = some v → v ≠ 1 := by
    intro j v hjk hjv hv1
    subst hv1
    have h := (hspec j).2.2
    rw [hjv] at h
    simp only [Option.getD_some] at h
    rw [toPoly_one, map_one] at h
    exact hmin (j + 1) (by omega) hjk h.symm
  have hk2 : 2 ≤ k := by
    by_contra hcon
    have hkeq : k = 1 := by omega
    have hα1 : α = 1 := by
      have h := hpowk
      rwa [hkeq, pow_one] at h
    have h1 : AdjoinRoot.mk (toPoly p) Polynomial.X = AdjoinRoot.mk (toPoly p) 1 := by
      rw [AdjoinRoot.mk_X, map_one]
      exact hα1
    have hdvd := AdjoinRoot.mk_eq_mk.mp h1
    rw [CharTwo.sub_eq_add] at hdvd
    have hXne : (Polynomial.X + 1 : Polynomial (ZMod 2)) ≠ 0 := by
      intro h
      have hco := congrArg (fun q => Polynomial.coeff q 1) h
      simp [Polynomial.coeff_one] at hco
    have hle := Polynomial.natDegree_le_of_dvd hdvd hXne
    have hdeg1 : (Polynomial.X + 1 : Polynomial (ZMod 2)).natDegree = 1 := by
      rw [show (1 : Polynomial (ZMod 2)) = Polynomial.C 1 from (Polynomial.C_1).symm]
      exact Polynomial.natDegree_X_add_C 1
    rw [hdeg1, natDegree_toPoly hp64 hpne] at hle
    omega
  have hiso : IsAlphaOrder p k := by
    refine ⟨by omega, ?_, ?_⟩
    · have h : toPoly p ∣ toPoly 1 + Polynomial.X ^ k :=
        dvd_iff_mk_eq.mpr (by rw [toPoly_one, map_one, hpowk])
      rwa [toPoly_one, add_comm] at h
    · intro j hj1 hjk hdvd
      have h : toPoly p ∣ toPoly 1 + Polynomial.X ^ j := by
        rw [toPoly_one, add_comm]
        exact hdvd
      have h2 := dvd_iff_mk_eq.mp h
      rw [toPoly_one, map_one] at h2
      exact hmin j hj1 hjk h2.symm
  exact ⟨k, hiso, hk2, hkle, hk_hit, hk_min⟩

theorem IsAlphaOrder_unique {p m k : Nat} (hm : IsAlphaOrder p m)
    (hk : IsAlphaOrder p k) : m = k := by
  obtain ⟨hm1, hmd, hmmin⟩ := hm
  obtain ⟨hk1, hkd, hkmin⟩ := hk
  by_contra hne
  rcases Nat.lt_or_ge m k with h | h
  · exact hkmin m hm1 h hmd
  · exact hmmin k hk1 (by omega) hkd

/-! ### Runs of the two program loops -/

theorem isPrimitiveLoop_run {p k : Nat}
    (htotal : ∀ n, ∃ v, alphaIter p n = some v)
    (hhit : alphaIter p (k - 1) = some 1)
    (hmin : ∀ j v, j + 1 < k → alphaIter p j = some v → v ≠ 1) (hk2 : 2 ≤ k) :
    ∀ fuel n c, alphaIter p n = some c → n + 1 ≤ k → k - n ≤ fuel →
      isPrimitiveLoop p fuel c (n + 1) = some k := by
  intro fuel
  induction fuel with
  | zero => intro n c _ _ hf; omega
  | succ fuel ih =>
    intro n c hc hnk hf
    by_cases hck : n + 1 = k
    · have hc1 : c = 1 := by
        have h := hhit
        rw [show k - 1 = n from by omega, hc] at h
        exact Option.some_inj.mp h
      subst hc1
      rw [isPrimitiveLoop, if_pos rfl, hck]
    · have hc1 : c ≠ 1 := hmin n c (by omega) hc
      obtain ⟨c2, hc2⟩ := htotal (n + 1)
      have hc2m : polyMod (polyMul c 2) p = some c2 := by
        have hstep : alphaIter p (n + 1)
            = (match alphaIter p n with
              | none => none
              | some c => polyMod (polyMul c 2) p) := rfl
        rw [hstep, hc] at hc2
        exact hc2
      rw [isPrimitiveLoop, if_neg hc1, hc2m]
      exact ih (n + 1) c2 hc2 (by omega) (by omega)

theorem fieldLoop_run {p k : Nat}
    (htotal : ∀ n, ∃ v, alphaIter p n = some v)
    (hhit : alphaIter p (k - 1) = some 1)
    (hmin : ∀ j v, j + 1 < k → alphaIter p j = some v → v ≠ 1) (hk2 : 2 ≤ k) :
    ∀ fuel n c acc, alphaIter p n = some c → n + 1 ≤ k → k - n ≤ fuel →
      ∃ tail, fieldLoop p fuel c acc = some (acc ++ tail) ∧
        tail.length = k - 1 - n ∧
        ∀ x ∈ tail, ∃ j, n ≤ j ∧ j + 1 < k ∧ alphaIter p j = some x := by
  intro fuel
  induction fuel with
  | zero =>
    intro n c acc hc hnk hf
    exact absurd hnk (by omega)
  | succ fuel ih =>
    intro n c acc hc hnk hf
    by_cases hck : n + 1 = k
    · have hc1 : c = 1 := by
        have h := hhit
        rw [show k - 1 = n from by omega, hc] at h
        exact Option.some_inj.mp h
      subst hc1
      refine ⟨[], ?_, ?_, by simp⟩
      · rw [fieldLoop, if_pos rfl, List.append_nil]
      · rw [List.length_nil]
        omega
    · have hc1 : c ≠ 1 := hmin n c (by omega) hc
      obtain ⟨c2, hc2⟩ := htotal (n + 1)
      have hc2m : polyMod (polyMul c 2) p = some c2 := by
        have hstep : alphaIter p (n + 1)
            = (match alphaIter p n with
              | none => none
              | some c => polyMod (polyMul c 2) p) := rfl
        rw [hstep, hc] at hc2
        exact hc2
      obtain ⟨tail, htl, hlen, hmem⟩ := ih (n + 1) c2 (acc ++ [c]) hc2 (by omega) (by omega)
      refine ⟨c :: tail, ?_, ?_, ?_⟩
      · rw [fieldLoop, if_neg hc1, hc2m]
        show fieldLoop p fuel c2 (acc ++ [c]) = some (acc ++ c :: tail)
        rw [htl]
        congr 1
        rw [List.append_assoc]
        rfl
      · rw [List.length_cons, hlen]
        omega
      · intro x hx
        rcases List.mem_cons.mp hx with h | h
        · exact ⟨n, Nat.le_refl n, by omega, h ▸ hc⟩
        · obtain ⟨j, hj1, hj2, hj3⟩ := hmem x h
          exact ⟨j, by omega, hj2, hj3⟩

/-- Central description of the two program loops for any modulus whose root
`x` has finite multiplicative order: both loops terminate, the order loop
returns the order `k`, and the enumeration loop appends exactly the `k - 1`
successive powers of `x`, none of which is the pattern 1. -/
theorem loops_run {p : Nat} (hp64 : p < 2 ^ 64) (hdp : 2 ≤ degree p)
    (hex : ∃ m, 1 ≤ m ∧ toPoly p ∣ Polynomial.X ^ m + 1) :
    ∃ k, IsAlphaOrder p k ∧ 2 ≤ k ∧ k ≤ 2 ^ degree p - 1 ∧
      (∀ fuel, k ≤ fuel → isPrimitiveLoop p fuel 2 1 = some k) ∧
      (∀ fuel acc, k ≤ fuel →
        ∃ tail, fieldLoop p fuel 2 acc = some (acc ++ tail) ∧
          tail.length = k - 1 ∧ ∀ x ∈ tail, x ≠ 1) := by
  obtain ⟨k, hiso, hk2, hkle, hhit, hmin⟩ := alpha_order_exists hp64 hdp hex
  have htotal : ∀ n, ∃ v, alphaIter p n = some v := by
    intro n
    obtain ⟨v, hv, _, _⟩ := alphaIter_spec hp64 hdp n
    exact ⟨v, hv⟩
  have hzero : alphaIter p 0 = some 2 := rfl
  refine ⟨k, hiso, hk2, hkle, ?_, ?_⟩
  · intro fuel hfuel
    exact isPrimitiveLoop_run htotal hhit hmin hk2 fuel 0 2 hzero (by omega) (by omega)
  · intro fuel acc hfuel
    obtain ⟨tail, htl, hlen, hmem⟩ :=
      fieldLoop_run htotal hhit hmin hk2 fuel 0 2 acc hzero (by omega) (by omega)
    refine ⟨tail, htl, by omega, ?_⟩
    intro x hx
    obtain ⟨j, _, hj2, hj3⟩ := hmem x hx
    exact hmin j x hj2 hj3

/-! ### Evaluation of `isPrimitive` and `findFieldElements` -/

/-- On its defined domain (degree between 2 and 30, x of finite order mod p)
`isPrimitive` returns the comparison of the true order with the full group
order. -/
theorem isPrimitive_eval {p : Nat} (hp64 : p < 2 ^ 64) (hdp : 2 ≤ degree p)
    (hd30 : degree p ≤ 30)
    (hex : ∃ m, 1 ≤ m ∧ toPoly p ∣ Polynomial.X ^ m + 1) :
    ∃ k, IsAlphaOrder p k ∧ k ≤ 2 ^ degree p - 1 ∧
      isPrimitive p = some (decide (k = 2 ^ degree p - 1)) := by
  obtain ⟨k, hiso, hk2, hkle, hloop, _⟩ := loops_run hp64 hdp hex
  have hkfuel : k ≤ bigFuel := by
    have h1 : (2 : Nat) ^ degree p ≤ 2 ^ 30 := Nat.pow_le_pow_right (by omega) hd30
    have h2 : (2 : Nat) ^ 30 ≤ 2 ^ 64 := Nat.pow_le_pow_right (by omega) (by omega)
    unfold bigFuel
    omega
  have hrun := hloop bigFuel hkfuel
  refine ⟨k, hiso, hkle, ?_⟩
  unfold isPrimitive
  rw [if_neg (by omega)]
  have hg : groupOrderC (degree p) = some (((2 ^ degree p : Nat) : Int) - 1) := by
    unfold groupOrderC
    rw [if_pos hd30, Nat.one_shiftLeft]
  rw [hg, hrun]
  show some (decide ((k : Int) = ((2 ^ degree p : Nat) : Int) - 1))
      = some (decide (k = 2 ^ degree p - 1))
  congr 1
  have hiff : ((k : Int) = ((2 ^ degree p : Nat) : Int) - 1)
      ↔ (k = 2 ^ degree p - 1) := by
    have hpos : (1 : Nat) ≤ 2 ^ degree p := Nat.pos_pow_of_pos _ (by omega)
    omega
  exact decide_eq_decide.mpr hiff

/-- On any modulus of degree ≥ 2 whose root x has finite order k,
`findFieldElements` returns `[0, 1]` followed by the k - 1 successive
powers of x, none of which is the pattern 1. -/
theorem findFieldElements_eval {p : Nat} (hp64 : p < 2 ^ 64) (hdp : 2 ≤ degree p)
    (hex : ∃ m, 1 ≤ m ∧ toPoly p ∣ Polynomial.X ^ m + 1) :
    ∃ k tail, IsAlphaOrder p k ∧ 2 ≤ k ∧ k ≤ 2 ^ degree p - 1 ∧
      findFieldElements p = some ([0, 1] ++ tail) ∧ tail.length = k - 1 ∧
      ∀ x ∈ tail, x ≠ 1 := by
  obtain ⟨k, hiso, hk2, hkle, _, hfield⟩ := loops_run hp64 hdp hex
  have hkfuel : k ≤ bigFuel := by
    have hdp63 : degree p ≤ 63 := degree_le p
    have h1 : (2 : Nat) ^ degree p ≤ 2 ^ 63 := Nat.pow_le_pow_right (by omega) hdp63
    have h2 : (2 : Nat) ^ 63 < 2 ^ 64 := Nat.pow_lt_pow_right (by omega) (by omega)
    unfold bigFuel
    omega
  obtain ⟨tail, htl, hlen, hne1⟩ := hfield bigFuel [0, 1] hkfuel
  exact ⟨k, tail, hiso, hk2, hkle, htl, hlen, hne1⟩

/-- For an irreducible modulus of degree ≥ 2 the class of x in the quotient
field has finite multiplicative order (pigeonhole on the reduced loop
values). -/
theorem order_exists_of_irreducible {p : Nat} (hp64 : p < 2 ^ 64)
    (hdp : 2 ≤ degree p) (hirr : Irreducible (toPoly p)) :
    ∃ m, 1 ≤ m ∧ toPoly p ∣ Polynomial.X ^ m + 1 := by
  haveI : Fact (Irreducible (toPoly p)) := ⟨hirr⟩
  have hpne : p ≠ 0 := p_ne_zero_of_degree hdp
  have hα0 : AdjoinRoot.root (toPoly p) ≠ 0 := by
    intro h
    have h1 : AdjoinRoot.mk (toPoly p) Polynomial.X = AdjoinRoot.mk (toPoly p) 0 := by
      rw [AdjoinRoot.mk_X, map_zero]
      exact h
    have h2 := AdjoinRoot.mk_eq_mk.mp h1
    rw [sub_zero] at h2
    have hle := Polynomial.natDegree_le_of_dvd h2 Polynomial.X_ne_zero
    rw [Polynomial.natDegree_X, natDegree_toPoly hp64 hpne] at hle
    omega
  have hval : ∀ n : Nat, (alphaIter p n).getD 0 < 2 ^ degree p
      ∧ AdjoinRoot.mk (toPoly p) (toPoly ((alphaIter p n).getD 0))
        = AdjoinRoot.root (toPoly p) ^ (n + 1) := by
    intro n
    obtain ⟨v, hv, hvlt, hvdvd⟩ := alphaIter_spec hp64 hdp n
    have hg : (alphaIter p n).getD 0 = v := by rw [hv, Option.getD_some]
    rw [hg]
    exact ⟨hvlt, dvd_iff_mk_eq.mp hvdvd⟩
  obtain ⟨i, j, hne, heq⟩ := Finite.exists_ne_map_eq_of_infinite
    (fun n : Nat => (⟨(alphaIter p n).getD 0, (hval n).1⟩ : Fin (2 ^ degree p)))
  have heqv : (alphaIter p i).getD 0 = (alphaIter p j).getD 0 := by
    have := congrArg Fin.val heq
    exact this
  have key : ∀ a b, a < b → (alphaIter p a).getD 0 = (alphaIter p b).getD 0 →
      ∃ m, 1 ≤ m ∧ toPoly p ∣ Polynomial.X ^ m + 1 := by
    intro a b hab habv
    have ha := (hval a).2
    have hb := (hval b).2
    rw [habv, hb] at ha
    have hsplit : AdjoinRoot.root (toPoly p) ^ (b + 1)
        = AdjoinRoot.root (toPoly p) ^ (a + 1) * AdjoinRoot.root (toPoly p) ^ (b - a) := by
      rw [← pow_add]
      congr 1
      omega
    have hcanc : AdjoinRoot.root (toPoly p) ^ (b - a) = 1 := by
      have hne0 : AdjoinRoot.root (toPoly p) ^ (a + 1) ≠ 0 := pow_ne_zero _ hα0
      apply mul_left_cancel₀ hne0
      rw [mul_one, ← hsplit, ha]
    have hdvd : toPoly p ∣ toPoly 1 + Polynomial.X ^ (b - a) :=
      dvd_iff_mk_eq.mpr (by rw [toPoly_one, map_one, hcanc])
    rw [toPoly_one, add_comm] at hdvd
    exact ⟨b - a, by omega, hdvd⟩
  rcases Nat.lt_or_ge i j with hij | hij
  · exact key i j hij heqv
  · have hji : j < i := by omega
    exact key j i hji heqv.symm

/-! ### Divergence of `isPrimitive` at x^2 and overflow at degree 32 -/

/-- Once the loop value reaches 0 modulo x^2 it never returns to 1, so the
order loop of `isPrimitive 4` runs forever (modelled: `none` for every
fuel). -/
theorem isPrimitiveLoop_four_none : ∀ fuel c ord, c = 0 ∨ c = 2 →
    isPrimitiveLoop 4 fuel c ord = none := by
  intro fuel
  induction fuel with
  | zero => intro c ord _; rfl
  | succ fuel ih =>
    intro c ord hc
    have hs0 : polyMod (polyMul 0 2) 4 = some 0 := by decide
    have hs2 : polyMod (polyMul 2 2) 4 = some 0 := by decide
    rcases hc with hc | hc
    · subst hc
      rw [isPrimitiveLoop, if_neg (by omega), hs0]
      exact ih 0 (ord + 1) (Or.inl rfl)
    · subst hc
      rw [isPrimitiveLoop, if_neg (by omega), hs2]
      exact ih 0 (ord + 1) (Or.inl rfl)

theorem isPrimitive_four_none : isPrimitive 4 = none := by
  have h := isPrimitiveLoop_four_none bigFuel 2 1 (Or.inr rfl)
  unfold isPrimitive
  rw [if_neg (by decide)]
  have hg : groupOrderC (degree 4) = some 3 := by decide
  rw [hg, h]

theorem isPrimitive_deg32_none : isPrimitive (2 ^ 32 + 1) = none := by decide

/-! ### Small concrete interpretations -/

theorem toPoly_three : toPoly 3 = Polynomial.X + 1 := by
  rw [show (3 : Nat) = 2 ^^^ 1 from by decide,
    toPoly_xor (by norm_num) (by norm_num), toPoly_two, toPoly_one]

theorem toPoly_seven : toPoly 7 = Polynomial.X ^ 2 + Polynomial.X + 1 := by
  rw [show (7 : Nat) = 4 ^^^ 3 from by decide,
    toPoly_xor (by norm_num) (by norm_num),
    show (4 : Nat) = 2 ^ 2 from by norm_num, toPoly_two_pow (by omega), toPoly_three]
  ring

theorem toPoly_nine : toPoly 9 = Polynomial.X ^ 3 + 1 := by
  rw [show (9 : Nat) = 8 ^^^ 1 from by decide,
    toPoly_xor (by norm_num) (by norm_num),
    show (8 : Nat) = 2 ^ 3 from by norm_num, toPoly_two_pow (by omega), toPoly_one]

theorem toPoly_31 : toPoly 31
    = Polynomial.X ^ 4 + Polynomial.X ^ 3 + Polynomial.X ^ 2 + Polynomial.X + 1 := by
  rw [show (31 : Nat) = 16 ^^^ 15 from by decide,
    toPoly_xor (by norm_num) (by norm_num),
    show (16 : Nat) = 2 ^ 4 from by norm_num, toPoly_two_pow (by omega),
    show (15 : Nat) = 8 ^^^ 7 from by decide,
    toPoly_xor (by norm_num) (by norm_num),
    show (8 : Nat) = 2 ^ 3 from by norm_num, toPoly_two_pow (by omega), toPoly_seven]
  ring

theorem toPoly_deg32_input : toPoly (2 ^ 32 + 1) = Polynomial.X ^ 32 + 1 := by
  rw [show (2 ^ 32 + 1 : Nat) = 2 ^ 32 ^^^ 1 from by decide,
    toPoly_xor (by norm_num) (by norm_num), toPoly_two_pow (by omega), toPoly_one]

/-- The polynomial x^2 + x + 1 divides x^3 + 1; computed through the
program product: polyMul 7 3 = 9. -/
theorem seven_dvd_X3 : toPoly 7 ∣ Polynomial.X ^ 3 + 1 := by
  have hmul : toPoly (polyMul 7 3) = toPoly 7 * toPoly 3 :=
    toPoly_polyMul (by norm_num) (by norm_num) (by decide)
  have h9 : polyMul 7 3 = 9 := by decide
  rw [h9, toPoly_nine] at hmul
  exact ⟨toPoly 3, hmul⟩

/-! ### Certifying concrete orders through the loop values -/

theorem X_pow_add_one_ne_zero {j : Nat} (hj : 1 ≤ j) :
    (Polynomial.X ^ j + 1 : Polynomial (ZMod 2)) ≠ 0 := by
  intro h
  have hc : (Polynomial.X ^ j + 1 : Polynomial (ZMod 2)).coeff 0 = 1 := by
    rw [Polynomial.coeff_add, Polynomial.coeff_X_pow, Polynomial.coeff_one]
    rw [if_neg (by omega), if_pos rfl, zero_add]
  rw [h] at hc
  simp at hc

/-- A loop value different from 1 at step j - 1 certifies that x^j is not 1
modulo p. -/
theorem not_dvd_of_alphaIter_ne_one {p j v : Nat} (hp64 : p < 2 ^ 64)
    (hdp : 2 ≤ degree p) (hj : 1 ≤ j) (hv : alphaIter p (j - 1) = some v)
    (hv1 : v ≠ 1) : ¬ toPoly p ∣ Polynomial.X ^ j + 1 := by
  intro hdvd
  obtain ⟨w, hw, hwlt, hwdvd⟩ := alphaIter_spec hp64 hdp (j - 1)
  rw [hv] at hw
  obtain rfl : v = w := Option.some_inj.mp hw
  rw [show j - 1 + 1 = j from by omega] at hwdvd
  have hcomb : toPoly p ∣ toPoly v + toPoly 1 := by
    have h := dvd_add hwdvd hdvd
    have h2 : (Polynomial.X ^ j : Polynomial (ZMod 2)) + Polynomial.X ^ j = 0 :=
      CharTwo.add_self_eq_zero _
    have he : (toPoly v + Polynomial.X ^ j) + (Polynomial.X ^ j + 1)
        = toPoly v + toPoly 1 := by
      rw [toPoly_one]
      calc (toPoly v + Polynomial.X ^ j) + (Polynomial.X ^ j + 1)
          = toPoly v + 1 + (Polynomial.X ^ j + Polynomial.X ^ j) := by ring
        _ = toPoly v + 1 := by rw [h2, add_zero]
    rwa [he] at h
  have h1lt : (1 : Nat) < 2 ^ degree p := by
    have h4 : (4 : Nat) ≤ 2 ^ degree p := by
      calc (4 : Nat) = 2 ^ 2 := rfl
        _ ≤ 2 ^ degree p := Nat.pow_le_pow_right (by omega) hdp
    omega
  exact hv1 (toPoly_cancel hp64 (p_ne_zero_of_degree hdp) hwlt h1lt hcomb)

/-- A loop value equal to 1 at step j - 1 certifies that x^j is 1 modulo
p. -/
theorem dvd_of_alphaIter_one {p j : Nat} (hp64 : p < 2 ^ 64)
    (hdp : 2 ≤ degree p) (hj : 1 ≤ j) (hv : alphaIter p (j - 1) = some 1) :
    toPoly p ∣ Polynomial.X ^ j + 1 := by
  obtain ⟨w, hw, _, hwdvd⟩ := alphaIter_spec hp64 hdp (j - 1)
  rw [hv] at hw
  obtain rfl : (1 : Nat) = w := Option.some_inj.mp hw
  rw [show j - 1 + 1 = j from by omega, toPoly_one, add_comm] at hwdvd
  exact hwdvd

/-- Computation-level certificate for the order of x modulo p. -/
theorem isAlphaOrder_of_computation {p k : Nat} (hp64 : p < 2 ^ 64)
    (hdp : 2 ≤ degree p) (hk : 1 ≤ k) (hhit : alphaIter p (k - 1) = some 1)
    (hmin : ∀ j, 1 ≤ j → j < k → ∃ v, alphaIter p (j - 1) = some v ∧ v ≠ 1) :
    IsAlphaOrder p k := by
  refine ⟨hk, dvd_of_alphaIter_one hp64 hdp hk hhit, ?_⟩
  intro j hj1 hjk
  obtain ⟨v, hv, hv1⟩ := hmin j hj1 hjk
  exact not_dvd_of_alphaIter_ne_one hp64 hdp hj1 hv hv1

theorem alphaOrder_seven : IsAlphaOrder 7 3 := by
  refine isAlphaOrder_of_computation (by norm_num) (by decide) (by omega) (by decide) ?_
  intro j hj1 hjk
  interval_cases j
  · exact ⟨2, by decide, by decide⟩
  · exact ⟨3, by decide, by decide⟩

/-! ### The claims -/

/-- C1 (amended): for every 64-bit pattern p whose degree is below 2, or
whose degree is between 2 and 30 while the root x has finite multiplicative
order modulo p (the spec assumes p irreducible, which guarantees this),
`isPrimitive p` returns a Boolean b, and b is true exactly when p has
degree at least 2 and the order of x modulo p is the full group order
2 ^ degree p - 1.  Without the two added provisos the original claim fails:
the loop never returns on p = x^2, and the 32-bit group-order computation
is undefined from degree 31 on (see the counterexample). -/
theorem isPrimitive_true_iff_full_order (p : Nat) (hp64 : p < 2 ^ 64)
    (hdom : degree p < 2
      ∨ (degree p ≤ 30 ∧ ∃ m, 1 ≤ m ∧ toPoly p ∣ Polynomial.X ^ m + 1)) :
    ∃ b, isPrimitive p = some b ∧
      (b = true ↔ 2 ≤ degree p ∧ IsAlphaOrder p (2 ^ degree p - 1)) := by
  by_cases hdp : 2 ≤ degree p
  · rcases hdom with hlt | ⟨h30, hex⟩
    · omega
    · obtain ⟨k, hiso, hkle, heval⟩ := isPrimitive_eval hp64 hdp h30 hex
      refine ⟨decide (k = 2 ^ degree p - 1), heval, ?_⟩
      rw [decide_eq_true_iff]
      constructor
      · intro hk
        subst hk
        exact ⟨hdp, hiso⟩
      · intro h
        exact IsAlphaOrder_unique hiso h.2
  · refine ⟨false, ?_, ?_⟩
    · unfold isPrimitive
      rw [if_pos (by omega)]
    · constructor
      · intro h
        cases h
      · intro h
        exact absurd h.1 hdp

theorem isPrimitive_true_iff_full_order_witness :
    (7 < 2 ^ 64 ∧ (degree 7 < 2
      ∨ (degree 7 ≤ 30 ∧ ∃ m, 1 ≤ m ∧ toPoly 7 ∣ Polynomial.X ^ m + 1))) ∧
    ∃ b, isPrimitive 7 = some b ∧
      (b = true ↔ 2 ≤ degree 7 ∧ IsAlphaOrder 7 (2 ^ degree 7 - 1)) := by
  have hdom : degree 7 < 2
      ∨ (degree 7 ≤ 30 ∧ ∃ m, 1 ≤ m ∧ toPoly 7 ∣ Polynomial.X ^ m + 1) :=
    Or.inr ⟨by decide, 3, by omega, seven_dvd_X3⟩
  exact ⟨⟨by norm_num, hdom⟩, isPrimitive_true_iff_full_order 7 (by norm_num) hdom⟩

/-- C1 counterexample: the claim as stated fails.  At p = 4 (x^2, degree 2)
the order loop never returns, so `isPrimitive` yields no Boolean at all
although the claim promises `false`; and at p = 2^32 + 1 (degree 32) the
root x does have finite order (x^32 = 1 modulo (x + 1)^32 = x^32 + 1), yet
the 32-bit group-order computation is undefined and `isPrimitive` again
yields no Boolean. -/
theorem isPrimitive_not_total_counterexample :
    isPrimitive 4 = none ∧ isPrimitive (2 ^ 32 + 1) = none ∧
    toPoly (2 ^ 32 + 1) ∣ Polynomial.X ^ 32 + 1 ∧
    ¬ ∃ b, isPrimitive 4 = some b ∧
      (b = true ↔ 2 ≤ degree 4 ∧ IsAlphaOrder 4 (2 ^ degree 4 - 1)) := by
  refine ⟨isPrimitive_four_none, isPrimitive_deg32_none, ?_, ?_⟩
  · rw [toPoly_deg32_input]
  · rintro ⟨b, hb, -⟩
    rw [isPrimitive_four_none] at hb
    cases hb

/-- C2: for a primitive polynomial p of degree q = degree p (the root x has
full multiplicative order 2 ^ q - 1 modulo p, with q at least 2),
`findFieldElements` returns exactly 2 ^ q patterns; the first is the zero
polynomial, the second is 1, and no entry at an index other than 1 equals
1. -/
theorem fieldElements_of_primitive (p : Nat) (hp64 : p < 2 ^ 64)
    (hdp : 2 ≤ degree p) (hprim : IsAlphaOrder p (2 ^ degree p - 1)) :
    ∃ l, findFieldElements p = some l ∧ l.length = 2 ^ degree p ∧
      l[0]? = some 0 ∧ l[1]? = some 1 ∧
      ∀ i (h : i < l.length), i ≠ 1 → l[i] ≠ 1 := by
  obtain ⟨k, tail, hiso, hk2, hkle, htl, hlen, hne1⟩ :=
    findFieldElements_eval hp64 hdp ⟨2 ^ degree p - 1, hprim.1, hprim.2.1⟩
  have hkeq : k = 2 ^ degree p - 1 := IsAlphaOrder_unique hiso hprim
  have h4 : (4 : Nat) ≤ 2 ^ degree p := by
    calc (4 : Nat) = 2 ^ 2 := rfl
      _ ≤ 2 ^ degree p := Nat.pow_le_pow_right (by omega) hdp
  refine ⟨[0, 1] ++ tail, htl, ?_, by simp, by simp, ?_⟩
  · rw [List.length_append, hlen, hkeq]
    show 2 + (2 ^ degree p - 1 - 1) = 2 ^ degree p
    omega
  · intro i h hne
    have hl : [0, 1] ++ tail = 0 :: 1 :: tail := rfl
    rcases Nat.lt_or_ge i 2 with hi | hi
    · have hi0 : i = 0 := by omega
      subst hi0
      simp only [hl, List.getElem_cons_zero]
      decide
    · obtain ⟨n, rfl⟩ : ∃ n, i = n + 2 := ⟨i - 2, by omega⟩
      simp only [hl, List.getElem_cons_succ]
      exact hne1 _ (List.getElem_mem _)

theorem fieldElements_of_primitive_witness :
    (7 < 2 ^ 64 ∧ 2 ≤ degree 7 ∧ IsAlphaOrder 7 (2 ^ degree 7 - 1)) ∧
    ∃ l, findFieldElements 7 = some l ∧ l.length = 2 ^ degree 7 ∧
      l[0]? = some 0 ∧ l[1]? = some 1 ∧
      ∀ i (h : i < l.length), i ≠ 1 → l[i] ≠ 1 := by
  have hprim : IsAlphaOrder 7 (2 ^ degree 7 - 1) := by
    have hd : degree 7 = 2 := by decide
    rw [hd]
    exact alphaOrder_seven
  exact ⟨⟨by norm_num, by decide, hprim⟩,
    fieldElements_of_primitive 7 (by norm_num) (by decide) hprim⟩

/-- C3: for divisors of degree at least 1 the remainder loop terminates and
returns either the zero polynomial or a polynomial of degree strictly below
the divisor's degree. -/
theorem remainder_degree_lt (a b : Nat) (ha : a < 2 ^ 64) (hb : b < 2 ^ 64)
    (hdb : 1 ≤ degree b) :
    ∃ r, polyMod a b = some r ∧ (r = 0 ∨ degree r < degree b) := by
  obtain ⟨r, h1, _, h3, _⟩ := polyMod_spec ha hb hdb
  exact ⟨r, h1, h3⟩

theorem remainder_degree_lt_witness :
    (11 < 2 ^ 64 ∧ 5 < 2 ^ 64 ∧ 1 ≤ degree 5) ∧
    ∃ r, polyMod 11 5 = some r ∧ (r = 0 ∨ degree r < degree 5) :=
  ⟨⟨by norm_num, by norm_num, by decide⟩,
    remainder_degree_lt 11 5 (by norm_num) (by norm_num) (by decide)⟩

/-- C5 (amended): the source computes `(1 << deg) - 1` in a 32-bit `int`.
That value is exact only for degrees up to 30; from degree 31 on the
computation overflows the 32-bit signed range (undefined behaviour, modelled
`none`), and `isPrimitive` then returns no result at all, contrary to the
original claim that the width suffices for degrees approaching 63. -/
theorem groupOrder_int_width (p : Nat) :
    (degree p ≤ 30 → groupOrderC (degree p) = some (((2 ^ degree p : Nat) : Int) - 1)) ∧
    (31 ≤ degree p → isPrimitive p = none) := by
  constructor
  · intro h30
    unfold groupOrderC
    rw [if_pos h30, Nat.one_shiftLeft]
  · intro h31
    unfold isPrimitive
    rw [if_neg (by omega)]
    have hg : groupOrderC (degree p) = none := by
      unfold groupOrderC
      rw [if_neg (by omega)]
    rw [hg]

theorem groupOrder_int_width_witness :
    (degree 7 ≤ 30 ∧ groupOrderC (degree 7) = some (((2 ^ degree 7 : Nat) : Int) - 1)) ∧
    (31 ≤ degree (2 ^ 63) ∧ isPrimitive (2 ^ 63) = none) :=
  ⟨⟨by decide, (groupOrder_int_width 7).1 (by decide)⟩,
    ⟨by decide, (groupOrder_int_width (2 ^ 63)).2 (by decide)⟩⟩

/-- C5 counterexample: at degree 63 the 32-bit computation does not produce
the exact group order 2^63 - 1 (it is undefined, modelled `none`), and
`isPrimitive` on x^63 returns no result. -/
theorem groupOrder_overflow_counterexample :
    ¬ (groupOrderC 63 = some (((2 ^ 63 : Nat) : Int) - 1)) ∧
    isPrimitive (2 ^ 63) = none := by
  constructor
  · intro h
    have hn : groupOrderC 63 = none := by decide
    rw [hn] at h
    cases h
  · decide

/-- C6: the regression case of the source test suite: dividing the pattern
0b11111101111110 by 0b100011011 (x^8 + x^4 + x^3 + x + 1) leaves remainder
1. -/
theorem remainder_regression_case :
    polyMod 0b11111101111110 0b100011011 = some 1 := by decide

/-- C7: x^6 + 1 (pattern 0b1000001) is rejected and x^6 + x + 1 (pattern
0b1000011), a primitive polynomial of degree 6, is accepted. -/
theorem isPrimitive_degree_six_cases :
    isPrimitive 0b1000001 = some false ∧ isPrimitive 0b1000011 = some true :=
  ⟨by decide, by decide⟩

/-- C8: addition of bit-packed polynomials is commutative, and so is the
product whenever no truncation occurs (the degrees sum to less than 64). -/
theorem add_mul_commutative (a b : Nat) (ha : a < 2 ^ 64) (hb : b < 2 ^ 64) :
    polyAdd a b = polyAdd b a ∧
    (degree a + degree b < 64 → polyMul a b = polyMul b a) := by
  constructor
  · exact Nat.xor_comm a b
  · intro hdeg
    apply toPoly_inj (polyMul_lt a b) (polyMul_lt b a)
    rw [toPoly_polyMul ha hb (by omega), toPoly_polyMul hb ha (by omega), mul_comm]

theorem add_mul_commutative_witness :
    (5 < 2 ^ 64 ∧ 3 < 2 ^ 64) ∧
    (polyAdd 5 3 = polyAdd 3 5 ∧
      (degree 5 + degree 3 < 64 → polyMul 5 3 = polyMul 3 5)) :=
  ⟨⟨by norm_num, by norm_num⟩, add_mul_commutative 5 3 (by norm_num) (by norm_num)⟩

/-- C9: `degree` returns the highest set bit position, and returns 0 on the
all-zero pattern. -/
theorem degree_highest_set_bit (a : Nat) (h64 : a < 2 ^ 64) :
    (a ≠ 0 → a.testBit (degree a) = true ∧ ∀ j, degree a < j → a.testBit j = false) ∧
    (a = 0 → degree a = 0) := by
  constructor
  · intro ha
    exact ⟨testBit_degree_true h64 ha, fun j hj => testBit_of_degree_lt h64 j hj⟩
  · intro ha
    rw [ha, degree_zero]

theorem degree_highest_set_bit_witness :
    (5 < 2 ^ 64) ∧
    ((5 ≠ 0 → Nat.testBit 5 (degree 5) = true
        ∧ ∀ j, degree 5 < j → Nat.testBit 5 j = false) ∧
      ((5 : Nat) = 0 → degree 5 = 0)) :=
  ⟨by norm_num, degree_highest_set_bit 5 (by norm_num)⟩

/-- C10: when the dividend's degree is already below the divisor's, the
division loop performs no iteration and returns the dividend unchanged; in
particular the remainder of 0 is 0. -/
theorem remainder_small_dividend (a b : Nat) (ha : a < 2 ^ 64) (hb : b < 2 ^ 64)
    (hdb : 1 ≤ degree b) (hab : degree a < degree b) :
    polyMod a b = some a ∧ polyMod 0 b = some 0 := by
  refine ⟨polyMod_of_degree_lt hab, polyMod_of_degree_lt ?_⟩
  rw [degree_zero]
  omega

theorem remainder_small_dividend_witness :
    (3 < 2 ^ 64 ∧ 8 < 2 ^ 64 ∧ 1 ≤ degree 8 ∧ degree 3 < degree 8) ∧
    (polyMod 3 8 = some 3 ∧ polyMod 0 8 = some 0) :=
  ⟨⟨by norm_num, by norm_num, by decide, by decide⟩,
    remainder_small_dividend 3 8 (by norm_num) (by norm_num) (by decide) (by decide)⟩

/-- C4: for every irreducible p of degree ≥ 2 the shared order loop
terminates within `2 ^ degree p` fuel (hence after at most
`2 ^ degree p - 1` iterations) and returns an order of at most
`2 ^ degree p - 1`; `findFieldElements` terminates as well, and when p is
not primitive the returned sequence has fewer than `2 ^ degree p`
entries. -/
theorem order_loop_terminates_of_irreducible (p : Nat) (hp64 : p < 2 ^ 64)
    (hirr : Irreducible (toPoly p)) (hdp : 2 ≤ degree p) :
    (∃ ord, isPrimitiveLoop p (2 ^ degree p) 2 1 = some ord
      ∧ ord ≤ 2 ^ degree p - 1) ∧
    (∃ l, findFieldElements p = some l ∧
      (¬ IsAlphaOrder p (2 ^ degree p - 1) → l.length < 2 ^ degree p)) := by
  have hex := order_exists_of_irreducible hp64 hdp hirr
  obtain ⟨k, hiso, hk2, hkle, hloop, hfield⟩ := loops_run hp64 hdp hex
  have h4 : (4 : Nat) ≤ 2 ^ degree p := by
    calc (4 : Nat) = 2 ^ 2 := rfl
      _ ≤ 2 ^ degree p := Nat.pow_le_pow_right (by omega) hdp
  constructor
  · exact ⟨k, hloop (2 ^ degree p) (by omega), hkle⟩
  · have hdp63 : degree p ≤ 63 := degree_le p
    have hkfuel : k ≤ bigFuel := by
      have h1 : (2 : Nat) ^ degree p ≤ 2 ^ 63 := Nat.pow_le_pow_right (by omega) hdp63
      have h2 : (2 : Nat) ^ 63 < 2 ^ 64 := by norm_num
      unfold bigFuel
      omega
    obtain ⟨tail, htl, hlen, _⟩ := hfield bigFuel [0, 1] hkfuel
    refine ⟨[0, 1] ++ tail, htl, ?_⟩
    intro hnot
    have hkne : k ≠ 2 ^ degree p - 1 := by
      intro h
      exact hnot (h ▸ hiso)
    rw [List.length_append, hlen]
    show 2 + (k - 1) < 2 ^ degree p
    omega

/-! ### Irreducibility certificate for x^4 + x^3 + x^2 + x + 1 -/

theorem zmod2_cases : ∀ a : ZMod 2, a = 0 ∨ a = 1 := by decide

theorem quartic_no_root : ∀ r : ZMod 2, ¬ (toPoly 31).IsRoot r := by
  intro r hr
  rw [Polynomial.IsRoot, toPoly_31] at hr
  rcases zmod2_cases r with h | h
  · subst h
    simp at hr
  · subst h
    simp at hr
    exact absurd hr (by decide)

/-- Over GF(2) a polynomial of degree 1 has a root (its constant
coefficient). -/
theorem root_of_natDegree_one {g : Polynomial (ZMod 2)} (hg : g.natDegree = 1) :
    ∃ r, g.IsRoot r := by
  have hgform := Polynomial.eq_X_add_C_of_natDegree_le_one (le_of_eq hg)
  have hgne : g ≠ 0 := by
    intro h0
    rw [h0] at hg
    simp at hg
  have hc1 : g.coeff 1 ≠ 0 := by
    have hlc := Polynomial.leadingCoeff_ne_zero.mpr hgne
    rwa [Polynomial.leadingCoeff, hg] at hlc
  have hone : g.coeff 1 = 1 := by
    rcases zmod2_cases (g.coeff 1) with h | h
    · exact absurd h hc1
    · exact h
  refine ⟨g.coeff 0, ?_⟩
  rw [Polynomial.IsRoot, hgform, hone]
  simp [CharTwo.add_self_eq_zero]

/-- Over GF(2) a monic-degree-2 polynomial with no roots must be
x^2 + x + 1. -/
theorem quad_no_root_eq {g : Polynomial (ZMod 2)} (hg : g.natDegree = 2)
    (hr : ∀ r : ZMod 2, ¬ g.IsRoot r) :
    g = Polynomial.X ^ 2 + Polynomial.X + 1 := by
  have hgne : g ≠ 0 := by
    intro h0
    rw [h0] at hg
    simp at hg
  have hsum := Polynomial.as_sum_range' g 3 (by omega)
  have hc2 : g.coeff 2 = 1 := by
    have hlc : g.coeff 2 ≠ 0 := by
      have h := Polynomial.leadingCoeff_ne_zero.mpr hgne
      rwa [Polynomial.leadingCoeff, hg] at h
    rcases zmod2_cases (g.coeff 2) with h | h
    · exact absurd h hlc
    · exact h
  have hc0 : g.coeff 0 = 1 := by
    have h0 : g.coeff 0 ≠ 0 := by
      intro hcc
      apply hr 0
      rw [Polynomial.IsRoot, ← Polynomial.coeff_zero_eq_eval_zero]
      exact hcc
    rcases zmod2_cases (g.coeff 0) with h | h
    · exact absurd h h0
    · exact h
  have he : g.eval 1 = g.coeff 0 + g.coeff 1 + g.coeff 2 := by
    conv_lhs => rw [hsum]
    rw [Polynomial.eval_finset_sum]
    rw [Finset.sum_range_succ, Finset.sum_range_succ, Finset.sum_range_one]
    simp [Polynomial.eval_monomial]
  have hc1 : g.coeff 1 = 1 := by
    have h1 := hr 1
    rw [Polynomial.IsRoot] at h1
    rw [he, hc0, hc2] at h1
    rcases zmod2_cases (g.coeff 1) with h | h
    · rw [h] at h1
      exact absurd (by decide) h1
    · exact h
  rw [hsum]
  rw [Finset.sum_range_succ, Finset.sum_range_succ, Finset.sum_range_one]
  rw [hc0, hc1, hc2, ← Polynomial.X_pow_eq_monomial, ← Polynomial.X_pow_eq_monomial,
    ← Polynomial.X_pow_eq_monomial]
  ring

theorem irreducible_toPoly_31 : Irreducible (toPoly 31) := by
  constructor
  · intro hu
    have h0 := Polynomial.natDegree_eq_zero_of_isUnit hu
    rw [natDegree_toPoly (by norm_num) (by norm_num)] at h0
    have hd : degree 31 = 4 := by decide
    omega
  · intro g h hgh
    by_contra hcon
    push_neg at hcon
    obtain ⟨hgu, hhu⟩ := hcon
    have hne : toPoly 31 ≠ 0 := toPoly_ne_zero (by norm_num) (by norm_num)
    have hgne : g ≠ 0 := by
      intro h0
      rw [h0, zero_mul] at hgh
      exact hne hgh
    have hhne : h ≠ 0 := by
      intro h0
      rw [h0, mul_zero] at hgh
      exact hne hgh
    have hpos_deg : ∀ q : Polynomial (ZMod 2), q ≠ 0 → ¬ IsUnit q
        → 1 ≤ q.natDegree := by
      intro q hq hqu
      by_contra h0
      push_neg at h0
      have hq0 : q.natDegree = 0 := by omega
      have hqC := Polynomial.eq_C_of_natDegree_eq_zero hq0
      apply hqu
      rw [hqC]
      apply Polynomial.isUnit_C.mpr
      apply isUnit_iff_ne_zero.mpr
      intro hcc
      apply hq
      rw [hqC, hcc, map_zero]
    have hgd := hpos_deg g hgne hgu
    have hhd := hpos_deg h hhne hhu
    have hsum : g.natDegree + h.natDegree = 4 := by
      have hmul := Polynomial.natDegree_mul hgne hhne
      have h31 : (toPoly 31).natDegree = 4 := by
        rw [natDegree_toPoly (by norm_num) (by norm_num)]
        decide
      rw [← hgh, h31] at hmul
      omega
    have hroot : ∀ q : Polynomial (ZMod 2), q ∣ toPoly 31 → ∀ r, ¬ q.IsRoot r := by
      intro q hq r hrq
      obtain ⟨s, hs⟩ := hq
      apply quartic_no_root r
      rw [Polynomial.IsRoot, hs, Polynomial.eval_mul]
      rw [Polynomial.IsRoot] at hrq
      rw [hrq, zero_mul]
    have hgdvd : g ∣ toPoly 31 := ⟨h, hgh⟩
    have hhdvd : h ∣ toPoly 31 := ⟨g, by rw [hgh, mul_comm]⟩
    rcases (by omega : g.natDegree = 1 ∨ g.natDegree = 2 ∨ g.natDegree = 3)
      with h1 | h2 | h3
    · obtain ⟨r, hrr⟩ := root_of_natDegree_one h1
      exact hroot g hgdvd r hrr
    · have hh2 : h.natDegree = 2 := by omega
      have hgq := quad_no_root_eq h2 (hroot g hgdvd)
      have hhq := quad_no_root_eq hh2 (hroot h hhdvd)
      have hmul : toPoly (polyMul 7 7) = toPoly 7 * toPoly 7 :=
        toPoly_polyMul (by norm_num) (by norm_num) (by decide)
      have h21 : polyMul 7 7 = 21 := by decide
      rw [h21] at hmul
      have heq : toPoly 31 = toPoly 21 := by
        rw [hgh, hgq, hhq, ← toPoly_seven, ← hmul]
      have h3121 := toPoly_inj (by norm_num) (by norm_num) heq
      norm_num at h3121
    · have hh1 : h.natDegree = 1 := by omega
      obtain ⟨r, hrr⟩ := root_of_natDegree_one hh1
      exact hroot h hhdvd r hrr

/-- The order of x modulo x^4 + x^3 + x^2 + x + 1 (pattern 31) is 5, so this
irreducible quartic is not primitive. -/
theorem alphaOrder_31 : IsAlphaOrder 31 5 := by
  refine isAlphaOrder_of_computation (by norm_num) (by decide) (by omega) (by decide) ?_
  intro j hj1 hjk
  interval_cases j
  · exact ⟨2, by decide, by decide⟩
  · exact ⟨4, by decide, by decide⟩
  · exact ⟨8, by decide, by decide⟩
  · exact ⟨15, by decide, by decide⟩

theorem not_primitive_31 : ¬ IsAlphaOrder 31 (2 ^ degree 31 - 1) := by
  intro h
  have hd : degree 31 = 4 := by decide
  rw [hd] at h
  have h515 := IsAlphaOrder_unique alphaOrder_31 h
  norm_num at h515

theorem order_loop_terminates_of_irreducible_witness :
    (31 < 2 ^ 64 ∧ Irreducible (toPoly 31) ∧ 2 ≤ degree 31) ∧
    ¬ IsAlphaOrder 31 (2 ^ degree 31 - 1) ∧
    ((∃ ord, isPrimitiveLoop 31 (2 ^ degree 31) 2 1 = some ord
        ∧ ord ≤ 2 ^ degree 31 - 1) ∧
      (∃ l, findFieldElements 31 = some l ∧
        (¬ IsAlphaOrder 31 (2 ^ degree 31 - 1) → l.length < 2 ^ degree 31))) :=
  ⟨⟨by norm_num, irreducible_toPoly_31, by decide⟩, not_primitive_31,
    order_loop_terminates_of_irreducible 31 (by norm_num) irreducible_toPoly_31 (by decide)⟩
